import Mathlib

/-!
Verification of the gix mini version-control tool (src/gix.mjs).

The repository state kept on disk under `.gix/` is modelled explicitly:
the content-addressed object store, the branch-ref files, the `HEAD` file,
the staging index and the working tree.  Each Gix method becomes a pure
Lean function from a `RepoState` (plus arguments) to a new `RepoState`
together with a result value describing the console outcome.  The SHA-1
content hash is kept abstract as a parameter `hO : String → String`;
theorems that need hash properties state them as explicit hypotheses.
-/

namespace Gix

/-- Removal of the elements satisfying `p` from both ends of a list. -/
def trimList {α : Type} (p : α → Bool) (l : List α) : List α :=
  ((l.dropWhile p).reverse.dropWhile p).reverse

/-- String trimming as performed by the JavaScript `String.prototype.trim`:
whitespace is removed from both ends.  Defined over the character list so
that proofs can use the `List.dropWhile` theory. -/
def jsTrim (s : String) : String :=
  ⟨trimList Char.isWhitespace s.data⟩

/-- Mirror of `String.prototype.startsWith`, defined over character lists. -/
def strStartsWith (s pre : String) : Bool := pre.data.isPrefixOf s.data

/-- Mirror of `String.prototype.substring(n)`, defined over character lists. -/
def strDrop (s : String) (n : Nat) : String := ⟨s.data.drop n⟩

/-- One staging-index entry, the JSON record `\x7b path, hash \x7d` kept in
the `index` file and inside the `files` array of a commit. -/
structure IndexEntry where
  path : String
  hash : String
deriving Repr, DecidableEq

/-- The commit record serialized into the object store by `Gix.commit`. -/
structure Commit where
  timeStamp : String
  message : String
  files : List IndexEntry
  parent : Option String
deriving Repr, DecidableEq

/-- An object stored under `objects/<hash>`.  On disk both kinds are plain
text files; a blob holds raw file content and a commit holds the JSON
serialization of a `Commit`.  We model the parse result directly: reading
an object as a commit succeeds exactly on `commitObj` entries, and reading
it as raw text yields the blob content or the commit serialization. -/
inductive GObj where
  | blob (content : String)
  | commitObj (c : Commit)
deriving Repr, DecidableEq

/-- Association-list lookup by string key; the first binding wins, as a
directory has at most one file per name. -/
def lookupAssoc {α : Type} (m : List (String × α)) (k : String) : Option α :=
  match m.find? (fun e => e.1 = k) with
  | some e => some e.2
  | none => none

/-- Overwriting file write: replace the binding for `k` if present,
otherwise append a new one. -/
def setAssoc {α : Type} (m : List (String × α)) (k : String) (v : α) :
    List (String × α) :=
  if m.any (fun e => e.1 = k) then
    m.map (fun e => if e.1 = k then (k, v) else e)
  else m ++ [(k, v)]

/-- File deletion: drop every binding for `k` (a no-op when absent, as
`checkout` ignores `ENOENT` on `unlink`). -/
def removeAssoc {α : Type} (m : List (String × α)) (k : String) :
    List (String × α) :=
  m.filter (fun e => ¬ e.1 = k)

/-- Full persistent state of one repository plus its working tree.
`objects` is the content-addressed store (`.gix/objects/<hash>`), `refs`
maps a path relative to `.gix` (normally `refs/heads/<name>`) to the text
content of that ref file, `head` is the text content of `.gix/HEAD`,
`index` is the parsed staging index and `worktree` maps a user file path
to its current content. -/
structure RepoState where
  objects : List (String × GObj)
  refs : List (String × String)
  head : String
  index : List IndexEntry
  worktree : List (String × String)
deriving Repr, DecidableEq

/-- Serialization of one `files` entry, mirroring the field order produced
by `JSON.stringify` on the records built in `updateIndex`.  JSON string
escaping is not modelled; the serialization is only used as hash input. -/
def serializeEntry (e : IndexEntry) : String :=
  "\x7b\"path\":\"" ++ e.path ++ "\",\"hash\":\"" ++ e.hash ++ "\"\x7d"

/-- Serialization of the `files` array of a commit. -/
def serializeFiles (fs : List IndexEntry) : String :=
  "[" ++ String.intercalate "," (fs.map serializeEntry) ++ "]"

/-- Serialization of a commit record, mirroring the field order of the
object literal built in `Gix.commit` (`timeStamp`, `message`, `files`,
`parent`). -/
def serializeCommit (c : Commit) : String :=
  "\x7b\"timeStamp\":\"" ++ c.timeStamp ++ "\",\"message\":\"" ++ c.message ++
    "\",\"files\":" ++ serializeFiles c.files ++ ",\"parent\":" ++
    (match c.parent with
     | none => "null"
     | some p => "\"" ++ p ++ "\"") ++ "\x7d"

/-- Reading an object file as raw text (`Gix.getFileContent`): `none` when
the hash is absent (`ENOENT`), otherwise the stored text. -/
def getFileContent (objects : List (String × GObj)) (hash : String) :
    Option String :=
  match lookupAssoc objects hash with
  | some (GObj.blob c) => some c
  | some (GObj.commitObj c) => some (serializeCommit c)
  | none => none

/-- Reading an object file and parsing it as a commit: `none` when the
file is absent (`ENOENT` from `readFile`) or when `JSON.parse` does not
yield a commit record. -/
def lookupCommitObj (objects : List (String × GObj)) (hash : String) :
    Option Commit :=
  match lookupAssoc objects hash with
  | some (GObj.commitObj c) => some c
  | _ => none

/-- Mirror of `Gix.getCurrentHead`: read `HEAD`, trim; if it is symbolic
(`ref: <path>`) read and trim the named ref file, returning `none` when
that file is missing (the `catch` branch); otherwise return the trimmed
raw content. -/
def getCurrentHead (st : RepoState) : Option String :=
  let headContent := jsTrim st.head
  if strStartsWith headContent "ref: " then
    match lookupAssoc st.refs (strDrop headContent 5) with
    | some s => some (jsTrim s)
    | none => none
  else
    some headContent

/-- The parent hash used by `Gix.commit`:
`(await this.getCurrentHead())?.trim() || null` — `null` when the head is
unresolved or resolves to an empty (falsy) string. -/
def commitParent (st : RepoState) : Option String :=
  match getCurrentHead st with
  | none => none
  | some h => if jsTrim h = "" then none else some (jsTrim h)

/-- The parent file set resolved by `Gix.commit`: empty when there is no
parent, and also empty (after a warning) when reading or parsing the
parent object fails. -/
def resolvedParentFiles (st : RepoState) : List IndexEntry :=
  match commitParent st with
  | none => []
  | some p =>
    match lookupCommitObj st.objects p with
    | some pc => pc.files
    | none => []

/-- Console outcome of `Gix.add`. -/
inductive AddResult where
  | added (hash : String)
  | removedFromIndex
deriving Repr, DecidableEq

/-- Mirror of `Gix.add`: read the file; on success store its content under
its hash and update the index (replace any entry for the same path, push
the new entry at the end, as `updateIndex` does); on `ENOENT` remove the
path from the index (`removeFromIndex`), staging a deletion. -/
def addOp (hO : String → String) (st : RepoState) (filePath : String) :
    RepoState × AddResult :=
  match lookupAssoc st.worktree filePath with
  | some data =>
    let hash := hO data
    ({ st with
        objects := setAssoc st.objects hash (GObj.blob data),
        index := (st.index.filter (fun e => ¬ e.path = filePath)) ++
          [{ path := filePath, hash := hash }] },
      AddResult.added hash)
  | none =>
    ({ st with index := st.index.filter (fun e => ¬ e.path = filePath) },
      AddResult.removedFromIndex)

/-- Console outcome of `Gix.commit`.  `committed` records the new hash,
whether the dangling-parent warning was printed, and whether the
detached-HEAD advisory was printed. -/
inductive CommitResult where
  | nothingToCommit
  | noChanges
  | committed (hash : String) (warnedDanglingParent : Bool) (detached : Bool)
deriving Repr, DecidableEq

/-- The dangling-parent warning of `Gix.commit`: printed when a parent
hash was resolved but its object cannot be read and parsed. -/
def parentWarned (st : RepoState) : Bool :=
  match commitParent st with
  | none => false
  | some p => (lookupCommitObj st.objects p).isNone

/-- The no-change comparison of `Gix.commit`:
`index.length === previous.length && index.every(i => previous.some(...))`. -/
def unchangedCheck (index previous : List IndexEntry) : Bool :=
  index.length = previous.length &&
    index.all (fun i => previous.any (fun p => p.path = i.path && p.hash = i.hash))

/-- Mirror of `Gix.commit`: fail on an empty index; resolve the parent
and its file set (empty, with a warning, when the parent does not resolve);
fail when the index matches the parent file set; otherwise store the new
commit object, then move the branch ref named by a symbolic `HEAD` (or
overwrite a detached `HEAD` with the raw hash), then clear the index. -/
def commitOp (hO : String → String) (st : RepoState)
    (message timeStamp : String) : RepoState × CommitResult :=
  let index := st.index
  if index.isEmpty then (st, CommitResult.nothingToCommit)
  else
    let parent := commitParent st
    let previous := resolvedParentFiles st
    let warned := parentWarned st
    if unchangedCheck index previous then (st, CommitResult.noChanges)
    else
      let cm : Commit :=
        { timeStamp := timeStamp, message := message, files := index,
          parent := parent }
      let hash := hO (serializeCommit cm)
      let objects := setAssoc st.objects hash (GObj.commitObj cm)
      let headContent := jsTrim st.head
      if strStartsWith headContent "ref: " then
        ({ st with
            objects := objects,
            refs := setAssoc st.refs (strDrop headContent 5) hash,
            index := [] },
          CommitResult.committed hash warned false)
      else
        ({ st with objects := objects, head := hash, index := [] },
          CommitResult.committed hash warned true)

/-- Console outcome of `Gix.createBranch`. -/
inductive BranchResult where
  | created (hash : String)
  | noCommitsYet
  | branchExists
deriving Repr, DecidableEq

/-- Mirror of `Gix.createBranch`: fail when the head does not resolve to a
non-empty hash; fail (leaving the ref untouched, flag `wx`) when the ref
file already exists; otherwise write the resolved head hash into the new
ref file. -/
def createBranch (st : RepoState) (branchName : String) :
    RepoState × BranchResult :=
  match getCurrentHead st with
  | none => (st, BranchResult.noCommitsYet)
  | some h =>
    if h = "" then (st, BranchResult.noCommitsYet)
    else
      let key := "refs/heads/" ++ branchName
      match lookupAssoc st.refs key with
      | some _ => (st, BranchResult.branchExists)
      | none => ({ st with refs := setAssoc st.refs key h },
          BranchResult.created h)

/-- One working-tree filesystem operation performed by `Gix.checkout`. -/
inductive FsOp where
  | unlink (p : String)
  | write (p : String) (content : String)
deriving Repr, DecidableEq

/-- Apply a sequence of working-tree operations in order. -/
def applyOps (wt : List (String × String)) : List FsOp → List (String × String)
  | [] => wt
  | FsOp.unlink p :: rest => applyOps (removeAssoc wt p) rest
  | FsOp.write p c :: rest => applyOps (setAssoc wt p c) rest

/-- The write loop of `Gix.checkout`: for each target file fetch its blob
and write it.  A missing blob throws `ENOENT` out of the loop (caught by
the outer handler), so the result is the list of writes performed before
the failure together with a success flag. -/
def checkoutWrites (objects : List (String × GObj)) :
    List IndexEntry → List FsOp × Bool
  | [] => ([], true)
  | f :: rest =>
    match getFileContent objects f.hash with
    | none => ([], false)
    | some c =>
      let r := checkoutWrites objects rest
      (FsOp.write f.path c :: r.1, r.2)

/-- The current-commit file set used by `Gix.checkout` for cleanup: empty
when the head does not resolve to a non-empty hash, and also empty (after
a warning) when the head commit object is missing or unparseable. -/
def checkoutCurrentFiles (st : RepoState) : List IndexEntry :=
  match getCurrentHead st with
  | none => []
  | some h =>
    if h = "" then []
    else
      match lookupCommitObj st.objects h with
      | some c => c.files
      | none => []

/-- Console outcome of `Gix.checkout`.  `errorCaught` covers every path
through the final `catch` block after the ref resolved: a missing or
unparseable target commit object, or a missing blob during the write
loop. -/
inductive CheckoutResult where
  | branchNotFound
  | branchHasNoCommits
  | switched (hash : String)
  | errorCaught
deriving Repr, DecidableEq

/-- Mirror of `Gix.checkout`, additionally returning the trace of
working-tree operations in the order performed.  Reading the ref file
fails with `ENOENT` when the branch is absent; an empty trimmed ref means
the branch has no commits; otherwise the target commit is loaded, obsolete
paths (in the current commit but not the target) are deleted first, then
every target file is written; only when all writes succeed are `HEAD`
repointed at the branch and the index cleared. -/
def checkoutFull (st : RepoState) (branchName : String) :
    RepoState × CheckoutResult × List FsOp :=
  let key := "refs/heads/" ++ branchName
  match lookupAssoc st.refs key with
  | none => (st, CheckoutResult.branchNotFound, [])
  | some content =>
    let newCommitHash := jsTrim content
    if newCommitHash = "" then (st, CheckoutResult.branchHasNoCommits, [])
    else
      match lookupCommitObj st.objects newCommitHash with
      | none => (st, CheckoutResult.errorCaught, [])
      | some newCommitData =>
        let newFiles := newCommitData.files
        let currentFiles := checkoutCurrentFiles st
        let deleteOps :=
          (currentFiles.filter
            (fun f => ¬ newFiles.any (fun nf => nf.path = f.path))).map
            (fun f => FsOp.unlink f.path)
        let writes := checkoutWrites st.objects newFiles
        let ops := deleteOps ++ writes.1
        let wt := applyOps st.worktree ops
        if writes.2 then
          ({ st with
              worktree := wt,
              head := "ref: refs/heads/" ++ branchName,
              index := [] },
            CheckoutResult.switched newCommitHash, ops)
        else
          ({ st with worktree := wt }, CheckoutResult.errorCaught, ops)

/-- State part of `Gix.checkout`. -/
def checkout (st : RepoState) (branchName : String) : RepoState :=
  (checkoutFull st branchName).1

/-- Outcome of the `while (head)` loop of `Gix.log`, carrying the entries
printed before the loop ended.  `done` means the loop reached a falsy
parent; `failed` means `readFile`/`JSON.parse` threw on the current hash
(the error escapes `log`, which has no handler); `out` marks fuel
exhaustion of the model (the source loop would still be running). -/
inductive WalkOut where
  | done (entries : List (String × Commit))
  | failed (entries : List (String × Commit))
  | out (entries : List (String × Commit))
deriving Repr, DecidableEq

/-- Prepend one printed entry to a walk outcome. -/
def WalkOut.push (e : String × Commit) : WalkOut → WalkOut
  | done es => done (e :: es)
  | failed es => failed (e :: es)
  | out es => out (e :: es)

/-- The walk outcome is a normal completion. -/
def WalkOut.isDone : WalkOut → Bool
  | done _ => true
  | _ => false

/-- The history loop of `Gix.log`: while the current hash is truthy, read
and parse the commit object (throwing when it is missing or not a commit)
and continue with its parent. -/
def logWalk (objects : List (String × GObj)) :
    Nat → Option String → WalkOut
  | _, none => WalkOut.done []
  | 0, some h => if h = "" then WalkOut.done [] else WalkOut.out []
  | Nat.succ n, some h =>
    if h = "" then WalkOut.done []
    else
      match lookupCommitObj objects h with
      | some c => (logWalk objects n c.parent).push (h, c)
      | none => WalkOut.failed []

/-- Console outcome of `Gix.log`. -/
inductive LogOut where
  | noCommits
  | walk (w : WalkOut)
deriving Repr, DecidableEq

/-- Mirror of `Gix.log`: resolve and trim the head; report `noCommits`
when it is falsy, otherwise run the history loop. -/
def logOf (st : RepoState) (fuel : Nat) : LogOut :=
  match getCurrentHead st with
  | none => LogOut.noCommits
  | some h =>
    if jsTrim h = "" then LogOut.noCommits
    else LogOut.walk (logWalk st.objects fuel (some (jsTrim h)))

/-- The walk from `start` passes exactly through the entries `es` (each
hash truthy and resolving to the paired commit, each parent pointing at
the next entry) and then reaches `tail`. -/
def walksTo (objects : List (String × GObj)) :
    Option String → List (String × Commit) → Option String → Prop
  | start, [], tail => start = tail
  | start, (h, c) :: rest, tail =>
    start = some h ∧ h ≠ "" ∧ lookupCommitObj objects h = some c ∧
      walksTo objects c.parent rest tail

/-- Build a JavaScript `Map` from a list of key-value pairs via repeated
`Map.set`, as the `forEach` loops of `Gix.status` do.  `Map.set` behaves
exactly like `setAssoc`: an existing key keeps its position and gets the
new value, a new key is appended. -/
def mapOf (l : List (String × String)) : List (String × String) :=
  l.foldl (fun m kv => setAssoc m kv.1 kv.2) []

/-- Mirror of `Map.prototype.has`. -/
def hasKey (m : List (String × String)) (k : String) : Bool :=
  (lookupAssoc m k).isSome

/-- The path exclusion applied by the working-directory scan of
`Gix.status`: paths under the control directory, hidden paths and
anything containing `node_modules` are skipped. -/
def isExcluded (p : String) : Bool :=
  strStartsWith p ".gix" || strStartsWith p "." ||
    decide ("node_modules".data <:+: p.data)

/-- The working-tree files visited by the scan of `Gix.status`, with the
excluded paths removed. -/
def visibleWorking (st : RepoState) : List (String × String) :=
  st.worktree.filter (fun e => ¬ isExcluded e.1)

/-- The `headFiles` map of `Gix.status`: files of the resolved head
commit, empty when the head is unresolved, falsy, missing from the store
or unparseable (the warning branch). -/
def statusHeadFiles (st : RepoState) : List (String × String) :=
  match getCurrentHead st with
  | none => []
  | some h =>
    if h = "" then []
    else
      match lookupCommitObj st.objects h with
      | some c => mapOf (c.files.map (fun f => (f.path, f.hash)))
      | none => []

/-- The `indexFiles` map of `Gix.status`. -/
def statusIndexFiles (st : RepoState) : List (String × String) :=
  mapOf (st.index.map (fun e => (e.path, e.hash)))

/-- The `workingDirectoryFiles` map of `Gix.status`: every visited path
with the fresh hash of its current content. -/
def statusWorkingHashes (hO : String → String) (st : RepoState) :
    List (String × String) :=
  mapOf ((visibleWorking st).map (fun e => (e.1, hO e.2)))

/-- The first classification loop of `Gix.status`, over the visited
working files in order: a path in neither map is untracked; otherwise a
staged path whose staged hash differs from the fresh hash, or a tracked
unstaged path whose head hash differs from the fresh hash, is recorded as
modified-not-staged. -/
def workingPass (hO : String → String)
    (headFiles indexFiles : List (String × String)) :
    List (String × String) → List String × List String
  | [] => ([], [])
  | (p, content) :: rest =>
    let r := workingPass hO headFiles indexFiles rest
    let currentHash := hO content
    let inIndex := hasKey indexFiles p
    let inHead := hasKey headFiles p
    if ¬ inIndex && ¬ inHead then (p :: r.1, r.2)
    else if inIndex && ¬ ((lookupAssoc indexFiles p).getD "" = currentHash) then
      (r.1, p :: r.2)
    else if inHead && ¬ inIndex &&
        ¬ ((lookupAssoc headFiles p).getD "" = currentHash) then
      (r.1, p :: r.2)
    else r

/-- Kind tag of a `changesToBeCommitted` entry of `Gix.status`. -/
inductive StagedType where
  | newFile
  | modified
deriving Repr, DecidableEq

/-- The second classification loop of `Gix.status`, over the index map: a
staged path absent from head is a new file, one whose head hash differs is
modified. -/
def indexPass (headFiles : List (String × String)) :
    List (String × String) → List (StagedType × String)
  | [] => []
  | (p, ih) :: rest =>
    (match lookupAssoc headFiles p with
     | none => [(StagedType.newFile, p)]
     | some hh => if ¬ hh = ih then [(StagedType.modified, p)] else []) ++
      indexPass headFiles rest

/-- The third classification loop of `Gix.status`, over the head map: a
tracked path missing from the working tree is deleted-staged when the
index still matches head, and deleted-unstaged when it is not staged at
all. -/
def headPass (workingHashes indexFiles : List (String × String)) :
    List (String × String) → List String × List String
  | [] => ([], [])
  | (p, hh) :: rest =>
    let r := headPass workingHashes indexFiles rest
    if ¬ hasKey workingHashes p && hasKey indexFiles p &&
        ((lookupAssoc indexFiles p).getD "" = hh) then
      (p :: r.1, r.2)
    else if ¬ hasKey workingHashes p && ¬ hasKey indexFiles p then
      (r.1, p :: r.2)
    else r

/-- The classification report printed by `Gix.status`. -/
structure StatusReport where
  untrackedFiles : List String
  changesNotStaged : List String
  changesToBeCommitted : List (StagedType × String)
  deletedStaged : List String
  deletedUnstaged : List String
deriving Repr, DecidableEq

/-- Mirror of the classification part of `Gix.status`. -/
def statusOf (hO : String → String) (st : RepoState) : StatusReport :=
  let headFiles := statusHeadFiles st
  let indexFiles := statusIndexFiles st
  let working := visibleWorking st
  let workingHashes := statusWorkingHashes hO st
  let w := workingPass hO headFiles indexFiles working
  { untrackedFiles := w.1,
    changesNotStaged := w.2,
    changesToBeCommitted := indexPass headFiles indexFiles,
    deletedStaged := (headPass workingHashes indexFiles headFiles).1,
    deletedUnstaged := (headPass workingHashes indexFiles headFiles).2 }

/-- A path appears in one of the three snapshots compared by
`Gix.status`.  The digest function is taken for uniformity with
`statusOf` but the three key sets do not depend on it. -/
def appearsIn (_hO : String → String) (st : RepoState) (p : String) : Prop :=
  hasKey (statusHeadFiles st) p = true ∨
    hasKey (statusIndexFiles st) p = true ∨
    p ∈ (visibleWorking st).map Prod.fst

/-- A path carries at least one label in a status report. -/
def labelled (r : StatusReport) (p : String) : Prop :=
  p ∈ r.untrackedFiles ∨ p ∈ r.changesNotStaged ∨
    p ∈ r.changesToBeCommitted.map Prod.snd ∨
    p ∈ r.deletedStaged ∨ p ∈ r.deletedUnstaged

/-- Component form of the ref invariant: every ref file whose trimmed
content is non-empty names a hash present in the given object store. -/
def RefsOkOn (refs : List (String × String))
    (objects : List (String × GObj)) : Prop :=
  ∀ e ∈ refs, jsTrim e.2 ≠ "" →
    (lookupAssoc objects (jsTrim e.2)).isSome = true

/-- Component form of the detached-head invariant: a detached `HEAD` with
non-empty trimmed content names a hash present in the object store. -/
def HeadOkOn (head : String) (objects : List (String × GObj)) : Prop :=
  strStartsWith (jsTrim head) "ref: " = false → jsTrim head ≠ "" →
    (lookupAssoc objects (jsTrim head)).isSome = true

/-- Invariant: every ref file under `.gix` whose trimmed content is
non-empty names a hash present in the object store. -/
def RefsOk (st : RepoState) : Prop := RefsOkOn st.refs st.objects

/-- Invariant: a detached `HEAD` with non-empty trimmed content names a
hash present in the object store. -/
def HeadOk (st : RepoState) : Prop := HeadOkOn st.head st.objects

/-- The store invariant: sound branch refs together with a sound detached
`HEAD`. -/
def StoreInv (st : RepoState) : Prop := RefsOk st ∧ HeadOk st

/-- The hash function produces trim-stable strings, as the hex digests of
the source do. -/
def GoodHash (hO : String → String) : Prop := ∀ s, jsTrim (hO s) = hO s

/-! ### Association-list lemmas -/

theorem lookupAssoc_nil {α : Type} (k : String) :
    lookupAssoc ([] : List (String × α)) k = none := rfl

theorem lookupAssoc_cons {α : Type} (e : String × α) (t : List (String × α))
    (k : String) :
    lookupAssoc (e :: t) k = if e.1 = k then some e.2 else lookupAssoc t k := by
  by_cases h : e.1 = k <;> simp [lookupAssoc, List.find?, h]

theorem lookupAssoc_map_update_self {α : Type} (t : List (String × α))
    (k : String) (v : α) (h : t.any (fun e => e.1 = k) = true) :
    lookupAssoc (t.map (fun e => if e.1 = k then (k, v) else e)) k = some v := by
  induction t with
  | nil => simp at h
  | cons e t ih =>
    by_cases he : e.1 = k
    · simp [he, lookupAssoc_cons]
    · have ht : t.any (fun e => e.1 = k) = true := by
        simp only [List.any_cons] at h
        simpa [he] using h
      simpa [he, lookupAssoc_cons] using ih ht

theorem lookupAssoc_map_update_ne {α : Type} (t : List (String × α))
    (k k' : String) (v : α) (hne : k' ≠ k) :
    lookupAssoc (t.map (fun e => if e.1 = k then (k, v) else e)) k' =
      lookupAssoc t k' := by
  induction t with
  | nil => rfl
  | cons e t ih =>
    by_cases he : e.1 = k
    · have h1 : ¬ (k = k') := fun hk => hne hk.symm
      have h2 : ¬ (e.1 = k') := by
        rw [he]
        exact h1
      simpa [he, lookupAssoc_cons, h1, h2] using ih
    · by_cases he' : e.1 = k'
      · simp [he, lookupAssoc_cons, he', hne]
      · simpa [he, lookupAssoc_cons, he'] using ih

theorem lookupAssoc_eq_none_of_not_any {α : Type} (m : List (String × α))
    (k : String) (h : m.any (fun e => e.1 = k) = false) :
    lookupAssoc m k = none := by
  unfold lookupAssoc
  have : m.find? (fun e => e.1 = k) = none := by
    apply List.find?_eq_none.mpr
    intro x hx
    have := List.any_eq_false.mp h x hx
    simpa using this
  simp [this]

theorem lookupAssoc_setAssoc_self {α : Type} (m : List (String × α))
    (k : String) (v : α) : lookupAssoc (setAssoc m k v) k = some v := by
  unfold setAssoc
  by_cases h : m.any (fun e => e.1 = k)
  · simpa [h] using lookupAssoc_map_update_self m k v h
  · simp only [Bool.not_eq_true] at h
    rw [if_neg (by simp [h])]
    have hnone : m.find? (fun e => e.1 = k) = none := by
      apply List.find?_eq_none.mpr
      intro x hx
      have := List.any_eq_false.mp h x hx
      simpa using this
    unfold lookupAssoc
    rw [List.find?_append, hnone]
    simp [List.find?]

theorem lookupAssoc_setAssoc_ne {α : Type} (m : List (String × α))
    (k k' : String) (v : α) (hne : k' ≠ k) :
    lookupAssoc (setAssoc m k v) k' = lookupAssoc m k' := by
  unfold setAssoc
  by_cases h : m.any (fun e => e.1 = k)
  · simpa [h] using lookupAssoc_map_update_ne m k k' v hne
  · simp only [Bool.not_eq_true] at h
    simp only [h]
    have hk : ¬ (k = k') := fun hk => hne hk.symm
    simp only [Bool.false_eq_true, if_false, lookupAssoc, List.find?_append,
      List.find?, hk]
    cases m.find? (fun e => decide (e.1 = k')) <;> simp [hk]

theorem lookupAssoc_setAssoc {α : Type} (m : List (String × α))
    (k k' : String) (v : α) :
    lookupAssoc (setAssoc m k v) k' =
      if k' = k then some v else lookupAssoc m k' := by
  by_cases h : k' = k
  · subst h
    simp [lookupAssoc_setAssoc_self]
  · simp [h, lookupAssoc_setAssoc_ne m k k' v h]

theorem lookupAssoc_removeAssoc {α : Type} (m : List (String × α))
    (k k' : String) :
    lookupAssoc (removeAssoc m k) k' =
      if k' = k then none else lookupAssoc m k' := by
  induction m with
  | nil => by_cases h : k' = k <;> simp [removeAssoc, lookupAssoc_nil, h]
  | cons e t ih =>
    by_cases he : e.1 = k
    · have hstep : removeAssoc (e :: t) k = removeAssoc t k := by
        simp [removeAssoc, List.filter, he]
      rw [hstep, ih]
      by_cases h : k' = k
      · simp [h]
      · have he' : ¬ (e.1 = k') := by
          rw [he]
          exact fun hk => h hk.symm
        simp [h, lookupAssoc_cons, he']
    · have hstep : removeAssoc (e :: t) k = e :: removeAssoc t k := by
        simp [removeAssoc, List.filter, he]
      rw [hstep, lookupAssoc_cons, ih, lookupAssoc_cons]
      by_cases he' : e.1 = k'
      · have h : ¬ (k' = k) := by
          intro hk
          rw [hk] at he'
          exact he he'
        simp [he', h]
      · by_cases h : k' = k <;> simp [he', h, he]

theorem isSome_lookupAssoc_setAssoc {α : Type} (m : List (String × α))
    (k k' : String) (v : α) (h : (lookupAssoc m k').isSome = true) :
    (lookupAssoc (setAssoc m k v) k').isSome = true := by
  rw [lookupAssoc_setAssoc]
  by_cases hk : k' = k <;> simp [hk, h]

/-! ### Trimming lemmas -/

theorem dropWhile_idem {α : Type} (p : α → Bool) (l : List α) :
    (l.dropWhile p).dropWhile p = l.dropWhile p := by
  induction l with
  | nil => rfl
  | cons a t ih =>
    by_cases h : p a
    · simp [List.dropWhile, h, ih]
    · simp [List.dropWhile, h]

theorem dropWhile_head_false {α : Type} (p : α → Bool) (l : List α)
    (a : α) (t : List α) (h : l.dropWhile p = a :: t) : p a = false := by
  induction l with
  | nil => simp [List.dropWhile] at h
  | cons b l ih =>
    by_cases hb : p b
    · exact ih (by simpa [List.dropWhile, hb] using h)
    · simp only [List.dropWhile, hb] at h
      cases h
      simpa using hb

theorem dropWhile_cons_false {α : Type} (p : α → Bool) (a : α) (t : List α)
    (h : p a = false) : (a :: t).dropWhile p = a :: t := by
  simp [List.dropWhile, h]

theorem rev_drop_head_false {α : Type} (p : α → Bool) (m : List α)
    (hHead : ∀ b u, m = b :: u → p b = false)
    (a : α) (t : List α) (h : (m.reverse.dropWhile p).reverse = a :: t) :
    p a = false := by
  have hsplit : m = (m.reverse.dropWhile p).reverse ++
      (m.reverse.takeWhile p).reverse := by
    calc m = m.reverse.reverse := (List.reverse_reverse m).symm
    _ = (m.reverse.takeWhile p ++ m.reverse.dropWhile p).reverse := by
        rw [List.takeWhile_append_dropWhile]
    _ = (m.reverse.dropWhile p).reverse ++ (m.reverse.takeWhile p).reverse :=
        List.reverse_append _ _
  rw [h] at hsplit
  exact hHead a _ (by rw [hsplit, List.cons_append])

theorem trimList_idem {α : Type} (p : α → Bool) (l : List α) :
    trimList p (trimList p l) = trimList p l := by
  unfold trimList
  have hstep1 : (((l.dropWhile p).reverse.dropWhile p).reverse).dropWhile p =
      ((l.dropWhile p).reverse.dropWhile p).reverse := by
    cases hrr : ((l.dropWhile p).reverse.dropWhile p).reverse with
    | nil => rfl
    | cons a t =>
      exact dropWhile_cons_false p a t
        (rev_drop_head_false p (l.dropWhile p)
          (fun b u hbu => dropWhile_head_false p l b u hbu) a t hrr)
  rw [hstep1, List.reverse_reverse, dropWhile_idem]

theorem jsTrim_idem (s : String) : jsTrim (jsTrim s) = jsTrim s :=
  congrArg String.mk (trimList_idem Char.isWhitespace s.data)

theorem jsTrim_empty : jsTrim "" = "" := rfl

theorem getCurrentHead_trimmed (st : RepoState) (h : String)
    (hh : getCurrentHead st = some h) : jsTrim h = h := by
  unfold getCurrentHead at hh
  by_cases hs : strStartsWith (jsTrim st.head) "ref: "
  · simp only [hs, if_true] at hh
    cases hl : lookupAssoc st.refs (strDrop (jsTrim st.head) 5) with
    | none => simp [hl] at hh
    | some s =>
      simp only [hl] at hh
      cases hh
      exact jsTrim_idem s
  · simp only [hs, if_false, Bool.false_eq_true] at hh
    cases hh
    exact jsTrim_idem st.head

theorem jsTrim_ref_heads_startsWith (b : String) :
    strStartsWith (jsTrim ("ref: refs/heads/" ++ b)) "ref: " = true := by
  unfold jsTrim trimList strStartsWith
  have hdata : ("ref: refs/heads/" ++ b).data =
      "ref: refs/heads/".data ++ b.data := String.data_append _ _
  have hcons : "ref: refs/heads/".data ++ b.data =
      'r' :: ("ef: refs/heads/".data ++ b.data) := rfl
  have hlead : (("ref: refs/heads/" ++ b).data).dropWhile Char.isWhitespace =
      "ref: refs/heads/".data ++ b.data := by
    rw [hdata, hcons]
    exact dropWhile_cons_false Char.isWhitespace 'r' _ (by decide)
  rw [hlead, List.reverse_append, List.dropWhile_append]
  by_cases hempty : (b.data.reverse.dropWhile Char.isWhitespace).isEmpty
  · simp only [hempty, if_true]
    have hp : ("ref: refs/heads/".data.reverse).dropWhile Char.isWhitespace =
        "ref: refs/heads/".data.reverse := by decide
    rw [hp, List.reverse_reverse]
    decide
  · simp only [hempty, if_false, Bool.false_eq_true]
    rw [List.reverse_append, List.reverse_reverse]
    apply List.isPrefixOf_iff_prefix.mpr
    refine ⟨"refs/heads/".data ++
      (b.data.reverse.dropWhile Char.isWhitespace).reverse, ?_⟩
    rw [← List.append_assoc]
    congr 1

/-! ### Claim C9: add on a missing path stages a deletion -/

/-- C9: for every path `f` that does not exist on disk, `add f` does not
fail and stores no object: it removes the entry for `f` from the index if
present and leaves the index unchanged otherwise, staging a deletion. -/
theorem add_missing_stages_deletion (hO : String → String) (st : RepoState)
    (f : String) (h : lookupAssoc st.worktree f = none) :
    (addOp hO st f).2 = AddResult.removedFromIndex ∧
    (addOp hO st f).1.objects = st.objects ∧
    (addOp hO st f).1.worktree = st.worktree ∧
    (addOp hO st f).1.index = st.index.filter (fun e => ¬ e.path = f) ∧
    ((∀ e ∈ st.index, e.path ≠ f) → (addOp hO st f).1.index = st.index) := by
  unfold addOp
  rw [h]
  refine ⟨rfl, rfl, rfl, rfl, fun hall => ?_⟩
  simp only
  exact List.filter_eq_self.mpr (fun e he => by simpa using hall e he)

/-- Concrete repository used to witness C9. -/
def stC9 : RepoState :=
  { objects := [], refs := [("refs/heads/master", "")],
    head := "ref: refs/heads/master",
    index := [{ path := "a.txt", hash := "h1" }], worktree := [] }

/-- Witness for C9 at a concrete state. -/
theorem add_missing_stages_deletion_witness :
    (addOp (fun s => s) stC9 "a.txt").2 = AddResult.removedFromIndex ∧
    (addOp (fun s => s) stC9 "a.txt").1.objects = stC9.objects ∧
    (addOp (fun s => s) stC9 "a.txt").1.worktree = stC9.worktree ∧
    (addOp (fun s => s) stC9 "a.txt").1.index =
      stC9.index.filter (fun e => ¬ e.path = "a.txt") ∧
    ((∀ e ∈ stC9.index, e.path ≠ "a.txt") →
      (addOp (fun s => s) stC9 "a.txt").1.index = stC9.index) :=
  add_missing_stages_deletion (fun s => s) stC9 "a.txt" (by decide)

/-! ### Claim C10: failed checkout mutates nothing -/

/-- C10: when `checkout` fails because the branch ref file is absent or
its trimmed content is empty, the whole state (HEAD, index, object store,
working tree) is unchanged and no working-tree operation is performed. -/
theorem checkout_fail_no_mutation (st : RepoState) (b : String)
    (h : lookupAssoc st.refs ("refs/heads/" ++ b) = none ∨
      ∃ s, lookupAssoc st.refs ("refs/heads/" ++ b) = some s ∧ jsTrim s = "") :
    (checkoutFull st b).1 = st ∧ (checkoutFull st b).2.2 = [] := by
  rcases h with h | ⟨s, hs, htrim⟩
  · simp [checkoutFull, h]
  · simp [checkoutFull, hs, htrim]

/-- Concrete repository used to witness C10. -/
def stC10 : RepoState :=
  { objects := [], refs := [("refs/heads/master", "")],
    head := "ref: refs/heads/master", index := [],
    worktree := [("a.txt", "A")] }

/-- Witness for C10 at a concrete state: `master` exists but is empty,
`dev` does not exist. -/
theorem checkout_fail_no_mutation_witness :
    ((checkoutFull stC10 "master").1 = stC10 ∧
      (checkoutFull stC10 "master").2.2 = []) ∧
    ((checkoutFull stC10 "dev").1 = stC10 ∧
      (checkoutFull stC10 "dev").2.2 = []) :=
  ⟨checkout_fail_no_mutation stC10 "master"
      (Or.inr ⟨"", by decide, by decide⟩),
    checkout_fail_no_mutation stC10 "dev" (Or.inl (by decide))⟩

/-! ### Claim C2: a no-change commit is rejected without mutation -/

/-- C2: committing with a non-empty index that is set-equal to the
resolved parent file set (same cardinality, and every index entry present
in the parent files by path and hash) yields `NoChanges` and leaves the
whole state untouched: no object written, no ref or HEAD moved, index
intact. -/
theorem commit_noChanges (hO : String → String) (st : RepoState)
    (msg ts : String) (hne : st.index ≠ [])
    (hlen : st.index.length = (resolvedParentFiles st).length)
    (hsub : ∀ i ∈ st.index, ∃ p ∈ resolvedParentFiles st,
      p.path = i.path ∧ p.hash = i.hash) :
    commitOp hO st msg ts = (st, CommitResult.noChanges) := by
  have hempty : st.index.isEmpty = false := by
    cases hi : st.index with
    | nil => exact absurd hi hne
    | cons a t => rfl
  have huc : unchangedCheck st.index (resolvedParentFiles st) = true := by
    unfold unchangedCheck
    apply (Bool.and_eq_true _ _).mpr
    constructor
    · exact decide_eq_true hlen
    · apply List.all_eq_true.mpr
      intro i hi
      rcases hsub i hi with ⟨p, hp, h1, h2⟩
      apply List.any_eq_true.mpr
      exact ⟨p, hp, by simp [h1, h2]⟩
  simp only [commitOp, hempty, Bool.false_eq_true, if_false, huc, if_true]

/-- Concrete repository used to witness C2: the index matches the head
commit files exactly. -/
def stC2 : RepoState :=
  { objects := [("c1", GObj.commitObj
      { timeStamp := "t0", message := "init",
        files := [{ path := "a.txt", hash := "h1" }], parent := none })],
    refs := [("refs/heads/master", "c1")],
    head := "ref: refs/heads/master",
    index := [{ path := "a.txt", hash := "h1" }],
    worktree := [("a.txt", "A")] }

/-- Witness for C2 at a concrete state. -/
theorem commit_noChanges_witness :
    commitOp (fun s => s) stC2 "msg" "t1" = (stC2, CommitResult.noChanges) :=
  commit_noChanges (fun s => s) stC2 "msg" "t1" (by decide) (by decide)
    (by decide)

/-! ### Claim C7: a dangling parent does not block commit -/

/-- C7: committing with a non-empty index whose parent hash does not
resolve in the store still succeeds: the warning flag is set, the parent
file set is treated as empty, and a new commit object carrying the
dangling parent hash is stored while the index is cleared. -/
theorem commit_dangling_parent (hO : String → String) (st : RepoState)
    (msg ts p : String) (hne : st.index ≠ [])
    (hp : commitParent st = some p)
    (hmiss : lookupAssoc st.objects p = none) :
    resolvedParentFiles st = [] ∧
    (∃ d, (commitOp hO st msg ts).2 =
      CommitResult.committed
        (hO (serializeCommit
          { timeStamp := ts, message := msg, files := st.index,
            parent := some p })) true d) ∧
    lookupAssoc (commitOp hO st msg ts).1.objects
        (hO (serializeCommit
          { timeStamp := ts, message := msg, files := st.index,
            parent := some p })) =
      some (GObj.commitObj
        { timeStamp := ts, message := msg, files := st.index,
          parent := some p }) ∧
    (commitOp hO st msg ts).1.index = [] := by
  have hlc : lookupCommitObj st.objects p = none := by
    unfold lookupCommitObj
    rw [hmiss]
  have hprev : resolvedParentFiles st = [] := by
    simp only [resolvedParentFiles, hp, hlc]
  have hempty : st.index.isEmpty = false := by
    cases hi : st.index with
    | nil => exact absurd hi hne
    | cons a t => rfl
  have hlen0 : ¬ (st.index.length = ([] : List IndexEntry).length) := by
    simp only [List.length_nil]
    intro h0
    exact hne (List.length_eq_zero.mp h0)
  have huc : unchangedCheck st.index (resolvedParentFiles st) = false := by
    rw [hprev]
    unfold unchangedCheck
    rw [decide_eq_false hlen0]
    simp
  have hwarn : parentWarned st = true := by
    simp only [parentWarned, hp, hlc, Option.isNone_none]
  refine ⟨hprev, ?_⟩
  by_cases hsw : strStartsWith (jsTrim st.head) "ref: "
  · simp only [commitOp, hempty, Bool.false_eq_true, if_false, huc, hp,
      hwarn, hsw, if_true]
    exact ⟨⟨false, rfl⟩, lookupAssoc_setAssoc_self _ _ _, trivial⟩
  · simp only [commitOp, hempty, Bool.false_eq_true, if_false, huc, hp,
      hwarn, hsw, if_false]
    exact ⟨⟨true, rfl⟩, lookupAssoc_setAssoc_self _ _ _, trivial⟩

/-- Concrete repository used to witness C7: `master` names a hash absent
from the store. -/
def stC7 : RepoState :=
  { objects := [],
    refs := [("refs/heads/master", "c0")],
    head := "ref: refs/heads/master",
    index := [{ path := "a.txt", hash := "h1" }],
    worktree := [("a.txt", "A")] }

/-- Witness for C7 at a concrete state. -/
theorem commit_dangling_parent_witness :
    resolvedParentFiles stC7 = [] ∧
    (∃ d, (commitOp (fun s => s) stC7 "msg" "t1").2 =
      CommitResult.committed
        ((fun s => s) (serializeCommit
          { timeStamp := "t1", message := "msg", files := stC7.index,
            parent := some "c0" })) true d) ∧
    lookupAssoc (commitOp (fun s => s) stC7 "msg" "t1").1.objects
        ((fun s => s) (serializeCommit
          { timeStamp := "t1", message := "msg", files := stC7.index,
            parent := some "c0" })) =
      some (GObj.commitObj
        { timeStamp := "t1", message := "msg", files := stC7.index,
          parent := some "c0" }) ∧
    (commitOp (fun s => s) stC7 "msg" "t1").1.index = [] :=
  commit_dangling_parent (fun s => s) stC7 "msg" "t1" "c0" (by decide)
    (by decide) (by decide)

/-! ### History-walk lemmas -/

theorem logWalk_done (objects : List (String × GObj))
    (es : List (String × Commit)) (start tail : Option String)
    (hw : walksTo objects start es tail)
    (htail : tail = none ∨ tail = some "") :
    logWalk objects es.length start = WalkOut.done es := by
  induction es generalizing start with
  | nil =>
    unfold walksTo at hw
    subst hw
    rcases htail with h | h <;> subst h <;> rfl
  | cons e rest ih =>
    obtain ⟨h, c⟩ := e
    obtain ⟨hstart, hne, hobj, hrest⟩ := hw
    subst hstart
    show logWalk objects (rest.length + 1) (some h) = _
    unfold logWalk
    rw [if_neg hne, hobj]
    simp only [ih c.parent hrest]
    rfl

theorem logWalk_failed (objects : List (String × GObj))
    (es : List (String × Commit)) (start : Option String) (m : String)
    (hw : walksTo objects start es (some m)) (hm : m ≠ "")
    (hmiss : lookupCommitObj objects m = none) :
    logWalk objects (es.length + 1) start = WalkOut.failed es := by
  induction es generalizing start with
  | nil =>
    unfold walksTo at hw
    subst hw
    show logWalk objects 1 (some m) = _
    unfold logWalk
    rw [if_neg hm, hmiss]
  | cons e rest ih =>
    obtain ⟨h, c⟩ := e
    obtain ⟨hstart, hne, hobj, hrest⟩ := hw
    subst hstart
    show logWalk objects (rest.length + 1 + 1) (some h) = _
    unfold logWalk
    rw [if_neg hne, hobj]
    simp only [ih c.parent hrest]
    rfl

theorem walksTo_getLast_parent (objects : List (String × GObj))
    (es : List (String × Commit)) (start : Option String)
    (hw : walksTo objects start es none) :
    ∀ e, es.getLast? = some e → e.2.parent = none := by
  induction es generalizing start with
  | nil => intro e he; simp at he
  | cons x rest ih =>
    obtain ⟨h, c⟩ := x
    obtain ⟨hstart, hne, hobj, hrest⟩ := hw
    intro e he
    cases rest with
    | nil =>
      simp only [List.getLast?_singleton, Option.some.injEq] at he
      subst he
      unfold walksTo at hrest
      simpa using hrest
    | cons y ys =>
      rw [List.getLast?_cons_cons] at he
      exact ih c.parent hrest e he

theorem walksTo_dropLast_parent (objects : List (String × GObj))
    (es : List (String × Commit)) (start : Option String)
    (hw : walksTo objects start es none) :
    ∀ e ∈ es.dropLast, e.2.parent ≠ none := by
  induction es generalizing start with
  | nil => intro e he; simp at he
  | cons x rest ih =>
    obtain ⟨h, c⟩ := x
    obtain ⟨hstart, hne, hobj, hrest⟩ := hw
    intro e he
    cases rest with
    | nil => simp at he
    | cons y ys =>
      rw [List.dropLast_cons₂, List.mem_cons] at he
      rcases he with he | he
      · subst he
        obtain ⟨hy, hyne, _, _⟩ := hrest
        rw [hy]
        simp
      · exact ih c.parent hrest e he

/-! ### Claim C4: a broken parent link fails log instead of degrading -/

/-- Concrete repository used to refute C4: one commit whose parent hash
resolves to nothing. -/
def stC4 : RepoState :=
  { objects := [("c1", GObj.commitObj
      { timeStamp := "t", message := "m", files := [],
        parent := some "gone" })],
    refs := [], head := "c1", index := [], worktree := [] }

/-- Counterexample to C4 as stated: with a dangling parent link the
history walk does not complete normally with the gathered history — the
missing object throws out of `log` (there is no handler in `Gix.log`), so
the operation fails after printing the entries gathered so far. -/
theorem log_graceful_cex :
    logOf stC4 5 = LogOut.walk (WalkOut.failed
      [("c1", { timeStamp := "t", message := "m", files := [],
                parent := some "gone" })]) ∧
    WalkOut.isDone (WalkOut.failed
      [("c1", { timeStamp := "t", message := "m", files := [],
                parent := some "gone" })]) = false := by
  constructor
  · decide
  · rfl

/-- C4 (amended): the history walk follows parent links and terminates:
when the chain from the start hash reaches a null (or empty) parent with
every hash resolving, the walk completes with exactly the chain; when a
hash on the chain fails to resolve, the walk stops there having gathered
the prefix, but the operation fails (the read error propagates out of
`log`) rather than completing normally. -/
theorem log_walk_outcomes (objects : List (String × GObj))
    (es : List (String × Commit)) (start : Option String) :
    (walksTo objects start es none →
      logWalk objects es.length start = WalkOut.done es) ∧
    (∀ m, walksTo objects start es (some m) → m ≠ "" →
      lookupCommitObj objects m = none →
      logWalk objects (es.length + 1) start = WalkOut.failed es) :=
  ⟨fun hw => logWalk_done objects es start none hw (Or.inl rfl),
    fun m hw hm hmiss => logWalk_failed objects es start m hw hm hmiss⟩

/-- Witness for the amended C4 at a concrete broken chain. -/
theorem log_walk_outcomes_witness :
    logWalk stC4.objects 2
        (some "c1") = WalkOut.failed
      [("c1", { timeStamp := "t", message := "m", files := [],
                parent := some "gone" })] :=
  (log_walk_outcomes stC4.objects
      [("c1", { timeStamp := "t", message := "m", files := [],
                parent := some "gone" })] (some "c1")).2
    "gone" ⟨rfl, by decide, by decide, rfl⟩ (by decide) (by decide)

/-! ### Claim C8: log lists a well-formed chain exactly -/

/-- C8: when the head resolves to the tip of a chain of commits all
present in the store (each parent pointing at the next, the root parent
null), `log` prints exactly the chain, child to root, and every printed
commit has a non-null parent except the last. -/
theorem log_chain (st : RepoState) (h1 : String) (c1 : Commit)
    (es : List (String × Commit))
    (hhead : getCurrentHead st = some h1)
    (hw : walksTo st.objects (some h1) ((h1, c1) :: es) none) :
    logOf st ((h1, c1) :: es).length =
      LogOut.walk (WalkOut.done ((h1, c1) :: es)) ∧
    (∀ e ∈ ((h1, c1) :: es).dropLast, e.2.parent ≠ none) ∧
    (∀ e, ((h1, c1) :: es).getLast? = some e → e.2.parent = none) := by
  have htrim : jsTrim h1 = h1 := getCurrentHead_trimmed st h1 hhead
  have hne : h1 ≠ "" := hw.2.1
  refine ⟨?_, walksTo_dropLast_parent st.objects _ _ hw,
    walksTo_getLast_parent st.objects _ _ hw⟩
  simp only [logOf, hhead]
  rw [htrim, if_neg hne,
    logWalk_done st.objects ((h1, c1) :: es) (some h1) none hw (Or.inl rfl)]

/-- Concrete two-commit chain used to witness C8. -/
def stC8 : RepoState :=
  { objects :=
      [("c2", GObj.commitObj
        { timeStamp := "t2", message := "second", files := [],
          parent := some "c1" }),
       ("c1", GObj.commitObj
        { timeStamp := "t1", message := "first", files := [],
          parent := none })],
    refs := [], head := "c2", index := [], worktree := [] }

/-- Witness for C8 at a concrete two-commit chain. -/
theorem log_chain_witness :
    logOf stC8 2 = LogOut.walk (WalkOut.done
      [("c2", { timeStamp := "t2", message := "second", files := [],
                parent := some "c1" }),
       ("c1", { timeStamp := "t1", message := "first", files := [],
                parent := none })]) :=
  (log_chain stC8 "c2"
      { timeStamp := "t2", message := "second", files := [],
        parent := some "c1" }
      [("c1", { timeStamp := "t1", message := "first", files := [],
                parent := none })]
      (by decide)
      (by refine ⟨rfl, by decide, by decide, rfl, by decide, by decide, rfl⟩)).1

/-! ### Claim C1: add, commit, checkout round trip -/

theorem strStartsWith_ref_append (b : String) :
    strStartsWith ("ref: refs/heads/" ++ b) "ref: " = true := by
  simp [strStartsWith, String.data_append]

theorem strDrop_ref_append (b : String) :
    strDrop ("ref: refs/heads/" ++ b) 5 = "refs/heads/" ++ b := rfl

/-- C1: staging a file `f` whose on-disk content is `C`, committing on
the current branch `b`, and checking `b` out again restores `f` with
content exactly `C`.  The hypotheses pin the scenario: the head is
symbolic on `b`, the index starts empty, the parent file set does not
already contain the staged entry (so the commit is not rejected), and the
new commit hash is a well-formed digest distinct from the blob hash (no
store collision). -/
theorem roundTrip (hO : String → String) (st : RepoState)
    (f C b msg ts : String)
    (hHead : jsTrim st.head = "ref: refs/heads/" ++ b)
    (hIdx : st.index = [])
    (hWt : lookupAssoc st.worktree f = some C)
    (hPrev : ∀ e ∈ resolvedParentFiles (addOp hO st f).1,
      ¬ (e.path = f ∧ e.hash = hO C))
    (hTrim : jsTrim (hO (serializeCommit
      { timeStamp := ts, message := msg,
        files := [{ path := f, hash := hO C }],
        parent := commitParent (addOp hO st f).1 })) =
      hO (serializeCommit
        { timeStamp := ts, message := msg,
          files := [{ path := f, hash := hO C }],
          parent := commitParent (addOp hO st f).1 }))
    (hNe : hO (serializeCommit
      { timeStamp := ts, message := msg,
        files := [{ path := f, hash := hO C }],
        parent := commitParent (addOp hO st f).1 }) ≠ "")
    (hColl : hO (serializeCommit
      { timeStamp := ts, message := msg,
        files := [{ path := f, hash := hO C }],
        parent := commitParent (addOp hO st f).1 }) ≠ hO C) :
    lookupAssoc
      ((checkout (commitOp hO (addOp hO st f).1 msg ts).1 b).worktree) f =
      some C := by
  have hst1 : (addOp hO st f).1 =
      { st with objects := setAssoc st.objects (hO C) (GObj.blob C),
                index := [{ path := f, hash := hO C }] } := by
    unfold addOp
    rw [hWt]
    simp [hIdx]
  rw [hst1] at hPrev hTrim hNe hColl ⊢
  have hblob1 : lookupAssoc (setAssoc st.objects (hO C) (GObj.blob C))
      (hO C) = some (GObj.blob C) := lookupAssoc_setAssoc_self _ _ _
  generalize hO1eq : setAssoc st.objects (hO C) (GObj.blob C) = O1
    at hblob1 hPrev hTrim hNe hColl ⊢
  generalize hPeq : commitParent
      { st with objects := O1, index := [{ path := f, hash := hO C }] } = P
    at hTrim hNe hColl
  generalize hHeq : hO (serializeCommit
      { timeStamp := ts, message := msg,
        files := [{ path := f, hash := hO C }], parent := P }) = H
    at hTrim hNe hColl
  have hucFalse : unchangedCheck [{ path := f, hash := hO C }]
      (resolvedParentFiles
        { st with objects := O1, index := [{ path := f, hash := hO C }] }) =
      false := by
    unfold unchangedCheck
    have hany : ((resolvedParentFiles
        { st with objects := O1,
                  index := [{ path := f, hash := hO C }] }).any
        (fun p => p.path = f && p.hash = hO C)) = false :=
      List.any_eq_false.mpr (fun p hp => by simpa using hPrev p hp)
    simp [hany]
  have hmain : commitOp hO
      { st with objects := O1, index := [{ path := f, hash := hO C }] }
      msg ts =
      ({ st with
          objects := setAssoc O1 H (GObj.commitObj
            { timeStamp := ts, message := msg,
              files := [{ path := f, hash := hO C }], parent := P }),
          refs := setAssoc st.refs ("refs/heads/" ++ b) H,
          index := [] },
        CommitResult.committed H
          (parentWarned
            { st with objects := O1,
                      index := [{ path := f, hash := hO C }] }) false) := by
    simp only [commitOp, hPeq, hHeq, hucFalse, hHead,
      strStartsWith_ref_append, strDrop_ref_append, List.isEmpty_cons,
      Bool.false_eq_true, if_false, if_true]
  rw [hmain]
  have hobjH : lookupAssoc (setAssoc O1 H (GObj.commitObj
      { timeStamp := ts, message := msg,
        files := [{ path := f, hash := hO C }], parent := P })) H =
      some (GObj.commitObj
        { timeStamp := ts, message := msg,
          files := [{ path := f, hash := hO C }], parent := P }) :=
    lookupAssoc_setAssoc_self _ _ _
  have hlcH : lookupCommitObj (setAssoc O1 H (GObj.commitObj
      { timeStamp := ts, message := msg,
        files := [{ path := f, hash := hO C }], parent := P })) H =
      some { timeStamp := ts, message := msg,
             files := [{ path := f, hash := hO C }], parent := P } := by
    unfold lookupCommitObj
    rw [hobjH]
  have hblob2 : lookupAssoc (setAssoc O1 H (GObj.commitObj
      { timeStamp := ts, message := msg,
        files := [{ path := f, hash := hO C }], parent := P })) (hO C) =
      some (GObj.blob C) := by
    rw [lookupAssoc_setAssoc_ne _ _ _ _ (fun hc => hColl hc.symm)]
    exact hblob1
  have hgfc : getFileContent (setAssoc O1 H (GObj.commitObj
      { timeStamp := ts, message := msg,
        files := [{ path := f, hash := hO C }], parent := P })) (hO C) =
      some C := by
    unfold getFileContent
    rw [hblob2]
  have hrefH : lookupAssoc (setAssoc st.refs ("refs/heads/" ++ b) H)
      ("refs/heads/" ++ b) = some H := lookupAssoc_setAssoc_self _ _ _
  have hgch : getCurrentHead
      { st with
        objects := setAssoc O1 H (GObj.commitObj
          { timeStamp := ts, message := msg,
            files := [{ path := f, hash := hO C }], parent := P }),
        refs := setAssoc st.refs ("refs/heads/" ++ b) H,
        index := [] } = some H := by
    unfold getCurrentHead
    simp only [hHead, strStartsWith_ref_append, if_true, strDrop_ref_append,
      hrefH, hTrim]
  simp only [checkout, checkoutFull, hrefH, hTrim, hNe, if_neg, hlcH,
    checkoutCurrentFiles, hgch, checkoutWrites, hgfc, applyOps]
  simp [applyOps, lookupAssoc_setAssoc_self, hNe]

/-- Digest function used by concrete witnesses: deterministic, collision
free on the contents that occur, and trim-stable. -/
def hashLen (s : String) : String := "g" ++ toString s.data.length

/-- Concrete fresh repository used to witness C1. -/
def stC1 : RepoState :=
  { objects := [], refs := [("refs/heads/master", "")],
    head := "ref: refs/heads/master", index := [],
    worktree := [("notes.txt", "x")] }

/-- Witness for C1: the add, commit, checkout cycle restores the staged
content at a concrete state. -/
theorem roundTrip_witness :
    lookupAssoc
      ((checkout (commitOp hashLen (addOp hashLen stC1 "notes.txt").1
        "m" "t").1 "master").worktree) "notes.txt" = some "x" :=
  roundTrip hashLen stC1 "notes.txt" "x" "master" "m" "t" (by decide) rfl
    (by decide) (by decide) (by decide) (by decide) (by decide)


/-! ### Checkout reconciliation lemmas -/

theorem applyOps_append (wt : List (String × String)) (a b : List FsOp) :
    applyOps wt (a ++ b) = applyOps (applyOps wt a) b := by
  induction a generalizing wt with
  | nil => rfl
  | cons o rest ih =>
    cases o with
    | unlink p =>
      simp only [List.cons_append, applyOps]
      exact ih (removeAssoc wt p)
    | write p c =>
      simp only [List.cons_append, applyOps]
      exact ih (setAssoc wt p c)

theorem checkoutWrites_all_some (objects : List (String × GObj))
    (fs : List IndexEntry)
    (h : ∀ e ∈ fs, (getFileContent objects e.hash).isSome = true) :
    checkoutWrites objects fs =
      (fs.map (fun e => FsOp.write e.path
        ((getFileContent objects e.hash).getD "")), true) := by
  induction fs with
  | nil => rfl
  | cons e rest ih =>
    have he := h e (List.mem_cons_self e rest)
    cases hc : getFileContent objects e.hash with
    | none => rw [hc] at he; simp at he
    | some c =>
      simp only [checkoutWrites, hc,
        ih (fun x hx => h x (List.mem_cons_of_mem e hx)), List.map_cons,
        Option.getD_some]

theorem applyOps_writes_lookup_other (wt : List (String × String))
    (fs : List IndexEntry) (content : IndexEntry → String) (q : String)
    (hq : ∀ e ∈ fs, e.path ≠ q) :
    lookupAssoc
      (applyOps wt (fs.map (fun e => FsOp.write e.path (content e)))) q =
      lookupAssoc wt q := by
  induction fs generalizing wt with
  | nil => rfl
  | cons e rest ih =>
    simp only [List.map_cons, applyOps]
    rw [ih (setAssoc wt e.path (content e))
      (fun x hx => hq x (List.mem_cons_of_mem e hx))]
    exact lookupAssoc_setAssoc_ne wt e.path q (content e)
      (fun hqe => hq e (List.mem_cons_self e rest) hqe.symm)

theorem applyOps_writes_lookup (wt : List (String × String))
    (fs : List IndexEntry) (content : IndexEntry → String)
    (hnodup : (fs.map (fun e => e.path)).Nodup) :
    ∀ e ∈ fs,
      lookupAssoc
        (applyOps wt (fs.map (fun e => FsOp.write e.path (content e))))
        e.path = some (content e) := by
  induction fs generalizing wt with
  | nil => intro e he; simp at he
  | cons e0 rest ih =>
    intro e he
    simp only [List.map_cons, List.nodup_cons] at hnodup
    rcases List.mem_cons.mp he with he | he
    · subst he
      simp only [List.map_cons, applyOps]
      rw [applyOps_writes_lookup_other (setAssoc wt e.path (content e)) rest
        content e.path
        (fun x hx hxe => hnodup.1 (hxe ▸ List.mem_map_of_mem _ hx))]
      exact lookupAssoc_setAssoc_self wt e.path (content e)
    · simp only [List.map_cons, applyOps]
      exact ih (setAssoc wt e0.path (content e0)) hnodup.2 e he

/-! ### Claim C5: checkout deletes obsolete paths first, then writes -/

/-- C5: during a successful checkout, the working-tree trace is a block
of deletions followed by a block of writes; a path is deleted exactly
when it is in the current commit files and not in the target commit
files; and every target file ends up in the working tree with exactly the
content stored for its hash (in particular a path shared by both commits
keeps the target content).  The hypotheses pin a resolvable branch whose
commit and blobs are all present, with unique target paths. -/
theorem checkout_delete_before_write (st : RepoState) (b s H : String)
    (tc : Commit)
    (href : lookupAssoc st.refs ("refs/heads/" ++ b) = some s)
    (hH : jsTrim s = H) (hHne : H ≠ "")
    (hobj : lookupCommitObj st.objects H = some tc)
    (hblobs : ∀ e ∈ tc.files, (getFileContent st.objects e.hash).isSome = true)
    (hnodup : (tc.files.map (fun e => e.path)).Nodup) :
    (∃ dels writes, (checkoutFull st b).2.2 = dels ++ writes ∧
      (∀ o ∈ dels, ∃ p, o = FsOp.unlink p) ∧
      (∀ o ∈ writes, ∃ p c, o = FsOp.write p c)) ∧
    (∀ p, FsOp.unlink p ∈ (checkoutFull st b).2.2 ↔
      ∃ e ∈ checkoutCurrentFiles st, e.path = p ∧
        tc.files.any (fun nf => nf.path = e.path) = false) ∧
    (∀ e ∈ tc.files,
      lookupAssoc (checkoutFull st b).1.worktree e.path =
        getFileContent st.objects e.hash) := by
  have hwrites := checkoutWrites_all_some st.objects tc.files hblobs
  have hmain : checkoutFull st b =
      ({ st with
          worktree := applyOps st.worktree
            (((checkoutCurrentFiles st).filter
              (fun f => ¬ tc.files.any (fun nf => nf.path = f.path))).map
              (fun f => FsOp.unlink f.path) ++
             tc.files.map (fun e => FsOp.write e.path
               ((getFileContent st.objects e.hash).getD ""))),
          head := "ref: refs/heads/" ++ b,
          index := [] },
        CheckoutResult.switched H,
        ((checkoutCurrentFiles st).filter
          (fun f => ¬ tc.files.any (fun nf => nf.path = f.path))).map
          (fun f => FsOp.unlink f.path) ++
         tc.files.map (fun e => FsOp.write e.path
           ((getFileContent st.objects e.hash).getD ""))) := by
    simp only [checkoutFull, href, hH, if_neg hHne, hobj, hwrites]
    simp
  rw [hmain]
  refine ⟨⟨_, _, rfl, ?_, ?_⟩, ?_, ?_⟩
  · intro o ho
    rcases List.mem_map.mp ho with ⟨x, _, hx⟩
    exact ⟨x.path, hx.symm⟩
  · intro o ho
    rcases List.mem_map.mp ho with ⟨x, _, hx⟩
    exact ⟨x.path, (getFileContent st.objects x.hash).getD "", hx.symm⟩
  · intro p
    constructor
    · intro hp
      rcases List.mem_append.mp hp with hp | hp
      · rcases List.mem_map.mp hp with ⟨x, hx, hxp⟩
        rcases List.mem_filter.mp hx with ⟨hx1, hx2⟩
        refine ⟨x, hx1, ?_, ?_⟩
        · cases hxp
          rfl
        · simpa using hx2
      · rcases List.mem_map.mp hp with ⟨x, _, hxp⟩
        cases hxp
    · rintro ⟨e, he, hep, hne⟩
      apply List.mem_append.mpr
      left
      apply List.mem_map.mpr
      refine ⟨e, List.mem_filter.mpr ⟨he, by simpa using hne⟩, by rw [hep]⟩
  · intro e he
    simp only
    rw [applyOps_append]
    have hl := applyOps_writes_lookup
      (applyOps st.worktree
        (((checkoutCurrentFiles st).filter
          (fun f => ¬ tc.files.any (fun nf => nf.path = f.path))).map
          (fun f => FsOp.unlink f.path)))
      tc.files (fun e => (getFileContent st.objects e.hash).getD "")
      hnodup e he
    rw [hl]
    have hsome := hblobs e he
    cases hc : getFileContent st.objects e.hash with
    | none => rw [hc] at hsome; simp at hsome
    | some c => simp [hc]

/-- Concrete two-branch repository used to witness C5: branch `x` tracks
paths `a` and `b2`, branch `y` tracks only `a`; the head is on `x`. -/
def stC5 : RepoState :=
  { objects :=
      [("cx", GObj.commitObj
        { timeStamp := "t1", message := "mx",
          files := [{ path := "a", hash := "ha" },
                    { path := "b2", hash := "hb" }], parent := none }),
       ("cy", GObj.commitObj
        { timeStamp := "t2", message := "my",
          files := [{ path := "a", hash := "ha" }], parent := none }),
       ("ha", GObj.blob "A"), ("hb", GObj.blob "B")],
    refs := [("refs/heads/x", "cx"), ("refs/heads/y", "cy")],
    head := "ref: refs/heads/x", index := [],
    worktree := [("a", "A"), ("b2", "B")] }

/-- Witness for C5 at the concrete two-branch repository. -/
theorem checkout_delete_before_write_witness :
    (∃ dels writes, (checkoutFull stC5 "y").2.2 = dels ++ writes ∧
      (∀ o ∈ dels, ∃ p, o = FsOp.unlink p) ∧
      (∀ o ∈ writes, ∃ p c, o = FsOp.write p c)) ∧
    (∀ p, FsOp.unlink p ∈ (checkoutFull stC5 "y").2.2 ↔
      ∃ e ∈ checkoutCurrentFiles stC5, e.path = p ∧
        ({ timeStamp := "t2", message := "my",
           files := [{ path := "a", hash := "ha" }],
           parent := none } : Commit).files.any
          (fun nf => nf.path = e.path) = false) ∧
    (∀ e ∈ ({ timeStamp := "t2", message := "my",
              files := [{ path := "a", hash := "ha" }],
              parent := none } : Commit).files,
      lookupAssoc (checkoutFull stC5 "y").1.worktree e.path =
        getFileContent stC5.objects e.hash) :=
  checkout_delete_before_write stC5 "y" "cy" "cy"
    { timeStamp := "t2", message := "my",
      files := [{ path := "a", hash := "ha" }], parent := none }
    (by decide) (by decide) (by decide) (by decide) (by decide) (by decide)

/-! ### Store-invariant lemmas -/

theorem mem_setAssoc {α : Type} (m : List (String × α)) (k : String)
    (v : α) (e : String × α) (he : e ∈ setAssoc m k v) :
    e = (k, v) ∨ e ∈ m := by
  unfold setAssoc at he
  by_cases h : m.any (fun x => x.1 = k)
  · rw [if_pos h] at he
    rcases List.mem_map.mp he with ⟨y, hy, hye⟩
    by_cases hyk : y.1 = k
    · rw [if_pos hyk] at hye
      exact Or.inl hye.symm
    · rw [if_neg hyk] at hye
      exact Or.inr (hye ▸ hy)
  · rw [if_neg h] at he
    rcases List.mem_append.mp he with he | he
    · exact Or.inr he
    · simp only [List.mem_singleton] at he
      exact Or.inl he

theorem lookupAssoc_mem {α : Type} (m : List (String × α)) (k : String)
    (v : α) (h : lookupAssoc m k = some v) : ∃ e ∈ m, e.2 = v := by
  unfold lookupAssoc at h
  cases hf : m.find? (fun e => e.1 = k) with
  | none => rw [hf] at h; cases h
  | some e =>
    rw [hf] at h
    cases h
    exact ⟨e, List.mem_of_find?_eq_some hf, rfl⟩

theorem RefsOkOn_setAssoc_objects (refs : List (String × String))
    (objects : List (String × GObj)) (k : String) (v : GObj)
    (h : RefsOkOn refs objects) : RefsOkOn refs (setAssoc objects k v) :=
  fun e he hne => isSome_lookupAssoc_setAssoc objects k _ v (h e he hne)

theorem HeadOkOn_setAssoc_objects (head : String)
    (objects : List (String × GObj)) (k : String) (v : GObj)
    (h : HeadOkOn head objects) : HeadOkOn head (setAssoc objects k v) :=
  fun hns hne => isSome_lookupAssoc_setAssoc objects k _ v (h hns hne)

theorem RefsOkOn_setAssoc_refs (refs : List (String × String))
    (objects : List (String × GObj)) (k v : String)
    (h : RefsOkOn refs objects)
    (hv : jsTrim v ≠ "" → (lookupAssoc objects (jsTrim v)).isSome = true) :
    RefsOkOn (setAssoc refs k v) objects := by
  intro e he hne
  rcases mem_setAssoc refs k v e he with he | he
  · subst he
    exact hv hne
  · exact h e he hne

/-- The resolved head hash of an invariant-satisfying state names an
object present in the store. -/
theorem getCurrentHead_isSome_of_inv (st : RepoState) (h : String)
    (hInv : StoreInv st) (hh : getCurrentHead st = some h) (hne : h ≠ "") :
    (lookupAssoc st.objects h).isSome = true := by
  unfold getCurrentHead at hh
  by_cases hs : strStartsWith (jsTrim st.head) "ref: "
  · simp only [hs, if_true] at hh
    cases hl : lookupAssoc st.refs (strDrop (jsTrim st.head) 5) with
    | none => simp [hl] at hh
    | some s0 =>
      simp only [hl] at hh
      cases hh
      rcases lookupAssoc_mem st.refs _ s0 hl with ⟨e, hemem, he2⟩
      have := hInv.1 e hemem (by rw [he2]; exact hne)
      rw [he2] at this
      exact this
  · simp only [hs, if_false, Bool.false_eq_true] at hh
    cases hh
    have hsf : strStartsWith (jsTrim st.head) "ref: " = false := by
      cases hx : strStartsWith (jsTrim st.head) "ref: "
      · rfl
      · exact absurd hx hs
    exact hInv.2 hsf hne

/-! ### Claim C6: branch refs always name stored hashes -/

/-- Concrete state used to refute C6 as stated: all branch refs are
empty (so the branch-ref invariant holds), but `HEAD` is detached on a
hash absent from the store. -/
def stC6 : RepoState :=
  { objects := [], refs := [("refs/heads/master", "")], head := "dead",
    index := [], worktree := [] }

/-- Counterexample to C6 as stated: `createBranch` copies the resolved
head hash into the new ref without checking the store, so from a state
where every non-empty branch ref names a stored hash (vacuously, both
refs being empty) but `HEAD` is detached on a dangling hash, the
operation produces a branch ref naming a hash absent from the store. -/
theorem refs_invariant_cex :
    RefsOk stC6 ∧ ¬ RefsOk (createBranch stC6 "b").1 := by
  constructor
  · unfold RefsOk RefsOkOn
    decide
  · unfold RefsOk RefsOkOn
    decide

/-- C6 (amended): with the invariant strengthened to cover a detached
`HEAD` as well (every non-empty ref file and every detached non-empty
`HEAD` names a hash present in the store), every mutating operation
preserves it: `add` and `commit` only extend the store before touching a
ref or `HEAD`, `createBranch` copies a resolved head hash that the
invariant guarantees to be stored, and `checkout` moves `HEAD` to a
symbolic ref.  The hash function is assumed to produce trim-stable
digests, as the hex digests of the source are. -/
theorem store_inv_preserved (hO : String → String) (st : RepoState)
    (f msg ts b b2 : String) (hGood : GoodHash hO) (hInv : StoreInv st) :
    StoreInv (addOp hO st f).1 ∧ StoreInv (commitOp hO st msg ts).1 ∧
    StoreInv (createBranch st b).1 ∧ StoreInv (checkoutFull st b2).1 := by
  obtain ⟨hrefs, hhead⟩ := hInv
  refine ⟨?_, ?_, ?_, ?_⟩
  · -- add
    unfold addOp
    cases lookupAssoc st.worktree f with
    | some data =>
      exact ⟨RefsOkOn_setAssoc_objects _ _ _ _ hrefs,
        HeadOkOn_setAssoc_objects _ _ _ _ hhead⟩
    | none => exact ⟨hrefs, hhead⟩
  · -- commit
    unfold commitOp
    by_cases hempty : st.index.isEmpty
    · simp only [hempty, if_true]
      exact ⟨hrefs, hhead⟩
    · simp only [hempty, Bool.false_eq_true, if_false]
      by_cases huc : unchangedCheck st.index (resolvedParentFiles st)
      · simp only [huc, if_true]
        exact ⟨hrefs, hhead⟩
      · simp only [huc, Bool.false_eq_true, if_false]
        by_cases hsw : strStartsWith (jsTrim st.head) "ref: "
        · simp only [hsw, if_true]
          refine ⟨?_, ?_⟩
          · apply RefsOkOn_setAssoc_refs
            · exact RefsOkOn_setAssoc_objects _ _ _ _ hrefs
            · intro hne
              rw [hGood, lookupAssoc_setAssoc_self]
              rfl
          · intro hns
            rw [hsw] at hns
            cases hns
        · simp only [hsw, Bool.false_eq_true, if_false]
          refine ⟨RefsOkOn_setAssoc_objects _ _ _ _ hrefs, ?_⟩
          intro hns hne
          rw [hGood, lookupAssoc_setAssoc_self]
          rfl
  · -- createBranch
    unfold createBranch
    cases hgch : getCurrentHead st with
    | none => exact ⟨hrefs, hhead⟩
    | some h =>
      by_cases hne : h = ""
      · simp only [hne, if_pos rfl]
        exact ⟨hrefs, hhead⟩
      · simp only [if_neg hne]
        cases hl : lookupAssoc st.refs ("refs/heads/" ++ b) with
        | some x => exact ⟨hrefs, hhead⟩
        | none =>
          refine ⟨?_, hhead⟩
          apply RefsOkOn_setAssoc_refs _ _ _ _ hrefs
          intro _
          rw [getCurrentHead_trimmed st h hgch]
          exact getCurrentHead_isSome_of_inv st h ⟨hrefs, hhead⟩ hgch hne
  · -- checkout
    cases hl : lookupAssoc st.refs ("refs/heads/" ++ b2) with
    | none =>
      simp only [checkoutFull, hl]
      exact ⟨hrefs, hhead⟩
    | some content =>
      by_cases hne : jsTrim content = ""
      · simp only [checkoutFull, hl, hne, if_pos]
        exact ⟨hrefs, hhead⟩
      · cases hobj : lookupCommitObj st.objects (jsTrim content) with
        | none =>
          simp only [checkoutFull, hl, if_neg hne, hobj]
          exact ⟨hrefs, hhead⟩
        | some c =>
          by_cases hw : (checkoutWrites st.objects c.files).2
          · simp only [checkoutFull, hl, if_neg hne, hobj, hw, if_true]
            refine ⟨hrefs, ?_⟩
            intro hns
            rw [jsTrim_ref_heads_startsWith b2] at hns
            cases hns
          · have hwf : (checkoutWrites st.objects c.files).2 = false := by
              cases hx : (checkoutWrites st.objects c.files).2 with
              | false => rfl
              | true => exact absurd hx hw
            simp only [checkoutFull, hl, if_neg hne, hobj, hwf,
              Bool.false_eq_true, if_false]
            exact ⟨hrefs, hhead⟩

/-- Concrete repository with one commit used to witness the amended C6. -/
def stC6w : RepoState :=
  { objects := [("g1", GObj.commitObj
      { timeStamp := "t", message := "m",
        files := [{ path := "a", hash := "h1" }], parent := none })],
    refs := [("refs/heads/master", "g1")],
    head := "ref: refs/heads/master",
    index := [{ path := "a", hash := "h2" }],
    worktree := [("a", "A")] }

/-- Constant digest used by the C6 witness is trim-stable. -/
theorem hashConstG2_good : GoodHash (fun _ => "g2") := by
  intro s
  show jsTrim "g2" = "g2"
  decide

/-- Witness for the amended C6 at a concrete state. -/
theorem store_inv_preserved_witness :
    StoreInv (addOp (fun _ => "g2") stC6w "a").1 ∧
    StoreInv (commitOp (fun _ => "g2") stC6w "msg" "t2").1 ∧
    StoreInv (createBranch stC6w "dev").1 ∧
    StoreInv (checkoutFull stC6w "master").1 :=
  store_inv_preserved (fun _ => "g2") stC6w "a" "msg" "t2" "dev" "master"
    hashConstG2_good
    ⟨by unfold RefsOk RefsOkOn; decide, by unfold HeadOk HeadOkOn; decide⟩

/-! ### Status map lemmas -/

theorem hasKey_iff (m : List (String × String)) (q : String) :
    hasKey m q = true ↔ ∃ e ∈ m, e.1 = q := by
  unfold hasKey lookupAssoc
  cases hf : m.find? (fun e => e.1 = q) with
  | none =>
    simp only [Option.isSome_none, Bool.false_eq_true, false_iff]
    rintro ⟨e, he, heq⟩
    have := List.find?_eq_none.mp hf e he
    simp [heq] at this
  | some e =>
    simp only [Option.isSome_some, true_iff]
    refine ⟨e, List.mem_of_find?_eq_some hf, ?_⟩
    have := List.find?_some hf
    simpa using this

theorem hasKey_of_mem (m : List (String × String)) (p v : String)
    (h : (p, v) ∈ m) : hasKey m p = true :=
  (hasKey_iff m p).mpr ⟨(p, v), h, rfl⟩

theorem hasKey_setAssoc (m : List (String × String)) (k v q : String) :
    hasKey (setAssoc m k v) q = if q = k then true else hasKey m q := by
  unfold hasKey
  rw [lookupAssoc_setAssoc]
  by_cases h : q = k <;> simp [h]

theorem keys_setAssoc_nodup {α : Type} (m : List (String × α))
    (k : String) (v : α) (h : (m.map Prod.fst).Nodup) :
    ((setAssoc m k v).map Prod.fst).Nodup := by
  unfold setAssoc
  by_cases ha : m.any (fun e => e.1 = k)
  · rw [if_pos ha, List.map_map]
    have : (m.map (Prod.fst ∘ fun e => if e.1 = k then (k, v) else e)) =
        m.map Prod.fst := by
      apply List.map_congr_left
      intro e _
      by_cases he : e.1 = k
      · simp [he]
      · simp [he]
    rw [this]
    exact h
  · rw [if_neg ha, List.map_append]
    apply List.nodup_append.mpr
    refine ⟨h, List.nodup_singleton k, ?_⟩
    intro x hx hxk
    simp only [List.map_cons, List.map_nil, List.mem_singleton] at hxk
    subst hxk
    rcases List.mem_map.mp hx with ⟨e, he, hek⟩
    apply ha
    exact List.any_eq_true.mpr ⟨e, he, by simp [hek]⟩

theorem mapOf_foldl_nodup (l : List (String × String))
    (m : List (String × String)) (h : (m.map Prod.fst).Nodup) :
    ((l.foldl (fun m kv => setAssoc m kv.1 kv.2) m).map Prod.fst).Nodup := by
  induction l generalizing m with
  | nil => exact h
  | cons kv rest ih =>
    exact ih (setAssoc m kv.1 kv.2) (keys_setAssoc_nodup m kv.1 kv.2 h)

theorem mapOf_nodupKeys (l : List (String × String)) :
    ((mapOf l).map Prod.fst).Nodup :=
  mapOf_foldl_nodup l [] List.nodup_nil

theorem hasKey_foldl (l : List (String × String))
    (m : List (String × String)) (q : String) :
    hasKey (l.foldl (fun m kv => setAssoc m kv.1 kv.2) m) q =
      (hasKey m q || l.any (fun e => e.1 = q)) := by
  induction l generalizing m with
  | nil => simp
  | cons kv rest ih =>
    rw [List.foldl_cons, ih (setAssoc m kv.1 kv.2), hasKey_setAssoc]
    by_cases h : q = kv.1
    · simp [h]
    · have : ¬ (kv.1 = q) := fun hk => h hk.symm
      simp [h, this]

theorem hasKey_mapOf (l : List (String × String)) (q : String) :
    hasKey (mapOf l) q = l.any (fun e => e.1 = q) := by
  unfold mapOf
  rw [hasKey_foldl]
  simp [hasKey, lookupAssoc]

theorem lookupAssoc_of_mem_nodup (m : List (String × String))
    (p v : String) (hmem : (p, v) ∈ m) (h : (m.map Prod.fst).Nodup) :
    lookupAssoc m p = some v := by
  induction m with
  | nil => simp at hmem
  | cons e t ih =>
    simp only [List.map_cons, List.nodup_cons] at h
    rcases List.mem_cons.mp hmem with hmem | hmem
    · subst hmem
      simp [lookupAssoc_cons]
    · by_cases he : e.1 = p
      · exfalso
        apply h.1
        rw [he]
        exact List.mem_map.mpr ⟨(p, v), hmem, rfl⟩
      · rw [lookupAssoc_cons, if_neg he]
        exact ih hmem h.2

theorem statusIndexFiles_nodupKeys (st : RepoState) :
    ((statusIndexFiles st).map Prod.fst).Nodup := mapOf_nodupKeys _

theorem statusHeadFiles_nodupKeys (st : RepoState) :
    ((statusHeadFiles st).map Prod.fst).Nodup := by
  unfold statusHeadFiles
  split
  · exact List.nodup_nil
  · split
    · exact List.nodup_nil
    · split
      · exact mapOf_nodupKeys _
      · exact List.nodup_nil

/-! ### Status pass membership lemmas -/

theorem workingPass_untracked_mem (hO : String → String)
    (hf idx ws : List (String × String)) (p : String)
    (hp : p ∈ (workingPass hO hf idx ws).1) :
    hasKey idx p = false ∧ hasKey hf p = false ∧
      ws.any (fun e => e.1 = p) = true := by
  induction ws with
  | nil => simp [workingPass] at hp
  | cons e rest ih =>
    obtain ⟨q, content⟩ := e
    simp only [workingPass] at hp
    split at hp
    · next hcond =>
      simp only [Bool.and_eq_true, decide_eq_true_eq, Bool.not_eq_true] at hcond
      rcases List.mem_cons.mp hp with hp | hp
      · subst hp
        exact ⟨hcond.1, hcond.2, by simp⟩
      · rcases ih hp with ⟨h1, h2, h3⟩
        exact ⟨h1, h2, by simp [h3]⟩
    · split at hp
      · rcases ih hp with ⟨h1, h2, h3⟩
        exact ⟨h1, h2, by simp [h3]⟩
      · split at hp
        · rcases ih hp with ⟨h1, h2, h3⟩
          exact ⟨h1, h2, by simp [h3]⟩
        · rcases ih hp with ⟨h1, h2, h3⟩
          exact ⟨h1, h2, by simp [h3]⟩

theorem workingPass_notStaged_mem (hO : String → String)
    (hf idx ws : List (String × String)) (p : String)
    (hp : p ∈ (workingPass hO hf idx ws).2) :
    (hasKey idx p = true ∨ hasKey hf p = true) ∧
      ws.any (fun e => e.1 = p) = true := by
  induction ws with
  | nil => simp [workingPass] at hp
  | cons e rest ih =>
    obtain ⟨q, content⟩ := e
    simp only [workingPass] at hp
    split at hp
    · rcases ih hp with ⟨h1, h2⟩
      exact ⟨h1, by simp [h2]⟩
    · split at hp
      · next hcond =>
        simp only [Bool.and_eq_true, decide_eq_true_eq] at hcond
        rcases List.mem_cons.mp hp with hp | hp
        · subst hp
          exact ⟨Or.inl hcond.1, by simp⟩
        · rcases ih hp with ⟨h1, h2⟩
          exact ⟨h1, by simp [h2]⟩
      · split at hp
        · next hcond =>
          simp only [Bool.and_eq_true, decide_eq_true_eq,
            Bool.not_eq_true] at hcond
          rcases List.mem_cons.mp hp with hp | hp
          · subst hp
            exact ⟨Or.inr hcond.1.1, by simp⟩
          · rcases ih hp with ⟨h1, h2⟩
            exact ⟨h1, by simp [h2]⟩
        · rcases ih hp with ⟨h1, h2⟩
          exact ⟨h1, by simp [h2]⟩

theorem indexPass_mem (hf idx : List (String × String)) (t : StagedType)
    (p : String) (hp : (t, p) ∈ indexPass hf idx) :
    ∃ ih, (p, ih) ∈ idx ∧
      ((t = StagedType.newFile ∧ lookupAssoc hf p = none) ∨
       (t = StagedType.modified ∧
         ∃ hh, lookupAssoc hf p = some hh ∧ ¬ hh = ih)) := by
  induction idx with
  | nil => simp [indexPass] at hp
  | cons e rest ih2 =>
    obtain ⟨q, qh⟩ := e
    simp only [indexPass] at hp
    rcases List.mem_append.mp hp with hp | hp
    · cases hl : lookupAssoc hf q with
      | none =>
        simp only [hl, List.mem_singleton, Prod.mk.injEq] at hp
        obtain ⟨ht, hq⟩ := hp
        subst ht
        subst hq
        exact ⟨qh, List.mem_cons_self _ _, Or.inl ⟨rfl, hl⟩⟩
      | some hh =>
        simp only [hl] at hp
        by_cases hne : ¬ hh = qh
        · rw [if_pos hne] at hp
          simp only [List.mem_singleton, Prod.mk.injEq] at hp
          obtain ⟨ht, hq⟩ := hp
          subst ht
          subst hq
          exact ⟨qh, List.mem_cons_self _ _, Or.inr ⟨rfl, hh, hl, hne⟩⟩
        · rw [if_neg hne] at hp
          simp at hp
    · rcases ih2 hp with ⟨ih, hmem, hcase⟩
      exact ⟨ih, List.mem_cons_of_mem _ hmem, hcase⟩

theorem headPass_deletedStaged_mem (wh idx hf : List (String × String))
    (p : String) (hp : p ∈ (headPass wh idx hf).1) :
    ∃ hh, (p, hh) ∈ hf ∧ hasKey wh p = false ∧
      lookupAssoc idx p = some hh := by
  induction hf with
  | nil => simp [headPass] at hp
  | cons e rest ih =>
    obtain ⟨q, hh⟩ := e
    simp only [headPass] at hp
    split at hp
    · next hcond =>
      simp only [Bool.and_eq_true, decide_eq_true_eq,
        Bool.not_eq_true] at hcond
      rcases List.mem_cons.mp hp with hp | hp
      · subst hp
        obtain ⟨⟨hw, hik⟩, hgd⟩ := hcond
        refine ⟨hh, List.mem_cons_self _ _, hw, ?_⟩
        cases hlk : lookupAssoc idx p with
        | none =>
          unfold hasKey at hik
          rw [hlk] at hik
          simp at hik
        | some x =>
          rw [hlk] at hgd
          simp only [Option.getD_some] at hgd
          rw [hgd]
      · rcases ih hp with ⟨h1, h2, h3, h4⟩
        exact ⟨h1, List.mem_cons_of_mem _ h2, h3, h4⟩
    · split at hp
      · rcases ih hp with ⟨h1, h2, h3, h4⟩
        exact ⟨h1, List.mem_cons_of_mem _ h2, h3, h4⟩
      · rcases ih hp with ⟨h1, h2, h3, h4⟩
        exact ⟨h1, List.mem_cons_of_mem _ h2, h3, h4⟩

theorem headPass_deletedUnstaged_mem (wh idx hf : List (String × String))
    (p : String) (hp : p ∈ (headPass wh idx hf).2) :
    ∃ hh, (p, hh) ∈ hf ∧ hasKey wh p = false ∧ hasKey idx p = false := by
  induction hf with
  | nil => simp [headPass] at hp
  | cons e rest ih =>
    obtain ⟨q, hh⟩ := e
    simp only [headPass] at hp
    split at hp
    · rcases ih hp with ⟨h1, h2, h3, h4⟩
      exact ⟨h1, List.mem_cons_of_mem _ h2, h3, h4⟩
    · split at hp
      · next hcond =>
        simp only [Bool.and_eq_true, decide_eq_true_eq,
          Bool.not_eq_true] at hcond
        rcases List.mem_cons.mp hp with hp | hp
        · subst hp
          exact ⟨hh, List.mem_cons_self _ _, hcond.1, hcond.2⟩
        · rcases ih hp with ⟨h1, h2, h3, h4⟩
          exact ⟨h1, List.mem_cons_of_mem _ h2, h3, h4⟩
      · rcases ih hp with ⟨h1, h2, h3, h4⟩
        exact ⟨h1, List.mem_cons_of_mem _ h2, h3, h4⟩

theorem hasKey_statusWorkingHashes (hO : String → String) (st : RepoState)
    (p : String) :
    hasKey (statusWorkingHashes hO st) p =
      (visibleWorking st).any (fun e => e.1 = p) := by
  unfold statusWorkingHashes
  rw [hasKey_mapOf, List.any_map]
  rfl

/-! ### Claim C3: status does not give every path exactly one label -/

/-- Digest function used by the C3 counterexample. -/
def hC3 : String → String := fun s =>
  if s = "CA" then "h3" else if s = "CD" then "h4" else "h0"

/-- Concrete repository used to refute C3: path `a` is staged with a
change against head and further modified on disk; path `d` is tracked,
unstaged and unchanged. -/
def stC3 : RepoState :=
  { objects := [("c1", GObj.commitObj
      { timeStamp := "t", message := "m",
        files := [{ path := "a", hash := "h1" },
                  { path := "d", hash := "h4" }], parent := none })],
    refs := [], head := "c1",
    index := [{ path := "a", hash := "h2" }],
    worktree := [("a", "CA"), ("d", "CD")] }

/-- Counterexample to C3 as stated: in `stC3` the path `a` appears in the
snapshots and receives two labels (modified-not-staged and
staged-modified), while the path `d` appears in the snapshots and
receives no label at all. -/
theorem status_exactly_one_cex :
    (appearsIn hC3 stC3 "a" ∧
      "a" ∈ (statusOf hC3 stC3).changesNotStaged ∧
      "a" ∈ (statusOf hC3 stC3).changesToBeCommitted.map Prod.snd) ∧
    (appearsIn hC3 stC3 "d" ∧ ¬ labelled (statusOf hC3 stC3) "d") := by
  unfold appearsIn labelled
  decide

/-- C3 (amended): the status classification is per path sound but not a
partition: every labelled path appears in at least one of the three
snapshots; each path receives at most one label from each of the three
loops; the deletion labels and the untracked label exclude every other
label; so the only pair of labels a path can carry is
modified-not-staged together with a staged label — and a path whose
three snapshots agree receives no label at all. -/
theorem status_label_pairs (hO : String → String) (st : RepoState)
    (p : String) :
    (labelled (statusOf hO st) p → appearsIn hO st p) ∧
    ¬ (p ∈ (statusOf hO st).untrackedFiles ∧
        p ∈ (statusOf hO st).changesNotStaged) ∧
    ¬ (p ∈ (statusOf hO st).untrackedFiles ∧
        p ∈ (statusOf hO st).changesToBeCommitted.map Prod.snd) ∧
    ¬ (p ∈ (statusOf hO st).untrackedFiles ∧
        (p ∈ (statusOf hO st).deletedStaged ∨
          p ∈ (statusOf hO st).deletedUnstaged)) ∧
    ¬ (p ∈ (statusOf hO st).changesNotStaged ∧
        (p ∈ (statusOf hO st).deletedStaged ∨
          p ∈ (statusOf hO st).deletedUnstaged)) ∧
    ¬ ((StagedType.newFile, p) ∈ (statusOf hO st).changesToBeCommitted ∧
        (StagedType.modified, p) ∈ (statusOf hO st).changesToBeCommitted) ∧
    ¬ (p ∈ (statusOf hO st).changesToBeCommitted.map Prod.snd ∧
        (p ∈ (statusOf hO st).deletedStaged ∨
          p ∈ (statusOf hO st).deletedUnstaged)) ∧
    ¬ (p ∈ (statusOf hO st).deletedStaged ∧
        p ∈ (statusOf hO st).deletedUnstaged) := by
  have hU : (statusOf hO st).untrackedFiles = (workingPass hO
      (statusHeadFiles st) (statusIndexFiles st) (visibleWorking st)).1 := rfl
  have hN : (statusOf hO st).changesNotStaged = (workingPass hO
      (statusHeadFiles st) (statusIndexFiles st) (visibleWorking st)).2 := rfl
  have hS : (statusOf hO st).changesToBeCommitted =
      indexPass (statusHeadFiles st) (statusIndexFiles st) := rfl
  have hDS : (statusOf hO st).deletedStaged = (headPass
      (statusWorkingHashes hO st) (statusIndexFiles st)
      (statusHeadFiles st)).1 := rfl
  have hDU : (statusOf hO st).deletedUnstaged = (headPass
      (statusWorkingHashes hO st) (statusIndexFiles st)
      (statusHeadFiles st)).2 := rfl
  have wsAny_of_mem : ∀ q,
      (visibleWorking st).any (fun e => e.1 = q) = true →
      q ∈ (visibleWorking st).map Prod.fst := by
    intro q hq
    rcases List.any_eq_true.mp hq with ⟨e, he, heq⟩
    simp only [decide_eq_true_eq] at heq
    exact List.mem_map.mpr ⟨e, he, heq⟩
  have stagedKey : ∀ q ∈ (statusOf hO st).changesToBeCommitted.map Prod.snd,
      hasKey (statusIndexFiles st) q = true := by
    intro q hq
    rcases List.mem_map.mp hq with ⟨x, hx, hxq⟩
    rw [hS] at hx
    have hx2 : (x.1, q) ∈ indexPass (statusHeadFiles st)
        (statusIndexFiles st) := by
      rw [← hxq]
      exact hx
    rcases indexPass_mem _ _ _ _ hx2 with ⟨ih, hmem, _⟩
    exact hasKey_of_mem _ _ _ hmem
  refine ⟨?_, ?_, ?_, ?_, ?_, ?_, ?_, ?_⟩
  · -- labelled implies appears
    intro hl
    rcases hl with h | h | h | h | h
    · rw [hU] at h
      exact Or.inr (Or.inr (wsAny_of_mem p
        (workingPass_untracked_mem hO _ _ _ p h).2.2))
    · rw [hN] at h
      exact Or.inr (Or.inr (wsAny_of_mem p
        (workingPass_notStaged_mem hO _ _ _ p h).2))
    · exact Or.inr (Or.inl (stagedKey p h))
    · rw [hDS] at h
      rcases headPass_deletedStaged_mem _ _ _ p h with ⟨hh, hmem, _, _⟩
      exact Or.inl (hasKey_of_mem _ _ _ hmem)
    · rw [hDU] at h
      rcases headPass_deletedUnstaged_mem _ _ _ p h with ⟨hh, hmem, _, _⟩
      exact Or.inl (hasKey_of_mem _ _ _ hmem)
  · -- untracked and not-staged exclude each other
    rintro ⟨hu, hn⟩
    rw [hU] at hu
    rw [hN] at hn
    rcases workingPass_untracked_mem hO _ _ _ p hu with ⟨h1, h2, _⟩
    rcases (workingPass_notStaged_mem hO _ _ _ p hn).1 with h | h
    · rw [h1] at h
      cases h
    · rw [h2] at h
      cases h
  · -- untracked and staged exclude each other
    rintro ⟨hu, hs2⟩
    rw [hU] at hu
    rcases workingPass_untracked_mem hO _ _ _ p hu with ⟨h1, _, _⟩
    have := stagedKey p hs2
    rw [h1] at this
    cases this
  · -- untracked and deleted exclude each other
    rintro ⟨hu, hd⟩
    rw [hU] at hu
    rcases workingPass_untracked_mem hO _ _ _ p hu with ⟨_, h2, _⟩
    rcases hd with hd | hd
    · rw [hDS] at hd
      rcases headPass_deletedStaged_mem _ _ _ p hd with ⟨hh, hmem, _, _⟩
      have := hasKey_of_mem _ _ _ hmem
      rw [h2] at this
      cases this
    · rw [hDU] at hd
      rcases headPass_deletedUnstaged_mem _ _ _ p hd with ⟨hh, hmem, _, _⟩
      have := hasKey_of_mem _ _ _ hmem
      rw [h2] at this
      cases this
  · -- not-staged and deleted exclude each other
    rintro ⟨hn, hd⟩
    rw [hN] at hn
    have hws := (workingPass_notStaged_mem hO _ _ _ p hn).2
    have hwh : hasKey (statusWorkingHashes hO st) p = true := by
      rw [hasKey_statusWorkingHashes]
      exact hws
    rcases hd with hd | hd
    · rw [hDS] at hd
      rcases headPass_deletedStaged_mem _ _ _ p hd with ⟨hh, _, hw, _⟩
      rw [hwh] at hw
      cases hw
    · rw [hDU] at hd
      rcases headPass_deletedUnstaged_mem _ _ _ p hd with ⟨hh, _, hw, _⟩
      rw [hwh] at hw
      cases hw
  · -- the two staged labels exclude each other
    rintro ⟨h1, h2⟩
    rw [hS] at h1 h2
    rcases indexPass_mem _ _ _ _ h1 with ⟨ih1, _, hc1⟩
    rcases indexPass_mem _ _ _ _ h2 with ⟨ih2, _, hc2⟩
    rcases hc1 with ⟨_, hnone⟩ | ⟨hbad, _⟩
    · rcases hc2 with ⟨hbad, _⟩ | ⟨_, hh, hsome, _⟩
      · cases hbad
      · rw [hnone] at hsome
        cases hsome
    · cases hbad
  · -- staged and deleted exclude each other
    rintro ⟨hs2, hd⟩
    rcases List.mem_map.mp hs2 with ⟨x, hx, hxq⟩
    rw [hS] at hx
    have hx2 : (x.1, p) ∈ indexPass (statusHeadFiles st)
        (statusIndexFiles st) := by
      rw [← hxq]
      exact hx
    rcases indexPass_mem _ _ _ _ hx2 with ⟨ih, hmem, hcase⟩
    have hlook : lookupAssoc (statusIndexFiles st) p = some ih :=
      lookupAssoc_of_mem_nodup _ p ih hmem (statusIndexFiles_nodupKeys st)
    rcases hd with hd | hd
    · rw [hDS] at hd
      rcases headPass_deletedStaged_mem _ _ _ p hd with ⟨hh, hmemh, _, hlook2⟩
      have hih : ih = hh := by
        rw [hlook] at hlook2
        cases hlook2
        rfl
      have hlookh : lookupAssoc (statusHeadFiles st) p = some hh :=
        lookupAssoc_of_mem_nodup _ p hh hmemh (statusHeadFiles_nodupKeys st)
      rcases hcase with ⟨_, hnone⟩ | ⟨_, hh2, hsome, hne⟩
      · rw [hnone] at hlookh
        cases hlookh
      · rw [hsome] at hlookh
        cases hlookh
        exact hne (hih ▸ rfl)
    · rw [hDU] at hd
      rcases headPass_deletedUnstaged_mem _ _ _ p hd with ⟨hh, _, _, hik⟩
      have := hasKey_of_mem _ _ _ hmem
      rw [hik] at this
      cases this
  · -- the two deletion labels exclude each other
    rintro ⟨h1, h2⟩
    rw [hDS] at h1
    rw [hDU] at h2
    rcases headPass_deletedStaged_mem _ _ _ p h1 with ⟨hh, _, _, hlook⟩
    rcases headPass_deletedUnstaged_mem _ _ _ p h2 with ⟨hh2, _, _, hik⟩
    unfold hasKey at hik
    rw [hlook] at hik
    cases hik

end Gix
